import Mathlib

/-!
# Verification of the collapsible-tree drag-and-drop engine

Shallow embedding of the tree layout/state engine of `d3TreeScript.js`
(the `Tree` function): the raw hierarchy data model (`Name`, `Synonyms`,
`Hypers`, `Verbs`, `Father`, `Children`), the visible hierarchy produced by
`d3.hierarchy` + `root.sort` + collapse toggles, and the `draggingEnd`
drag-and-drop reparenting algorithm.

Modelling conventions:
* The raw data tree is the mutual inductive `PT` / `PTL` (a node and its
  child list).  Object identity of a data node is its path (list of child
  indices in the original `Children` lists), mirroring JavaScript reference
  identity for nodes reachable from the root.
* Pixel coordinates are exact integers (`ℤ`).  The source compares
  `Math.sqrt(dx*dx + dy*dy)` against the constants `2` and `dndThreshold`;
  since `Real.sqrt` is strictly monotone on nonnegatives, `sqrt s < t` with
  `t ≥ 0` holds iff `s < t*t`, so all comparisons are carried out on the
  squared distances (`2` becomes `2*2`, the threshold `t` becomes `t*t`).
  `Infinity` (the distance assigned to the dragged node and to the excluded
  nodes) is represented by `none : Option ℤ`.
* `d3.hierarchy(data, d => d.Children)` plus
  `root.sort((a,b) => d3.ascending(a.data.Name, b.data.Name))` is modelled
  by pairing each node with its path and sorting sibling lists stably by
  name (JavaScript `Array.prototype.sort` is stable).
  `root.descendants()` iterates the visible hierarchy in breadth-first
  (level) order, which `bfsPairs` reproduces with an explicit fuel bound
  (`PT.sz t` exceeds the tree height, so the traversal is complete).
* A collapsed node has `children = null` in the source while `_children`
  keeps the real child array; the collapse state is the set `C` of
  collapsed paths, and the visible hierarchy is derived from the data and
  `C`.
-/

mutual
/-- A raw hierarchy node, as in the input JSON consumed by `Tree`:
fields `Name`, `Synonyms`, `Hypers` (ancestor names, nearest parent first),
`Verbs`, `Father` (parent name, denormalized) and `Children`. -/
inductive PT : Type where
  | mk (name : String) (synonyms : List String) (hypers : List String)
       (verbs : List String) (father : String) (children : PTL)
inductive PTL : Type where
  | nil
  | cons (head : PT) (tail : PTL)
end

def PT.Name : PT → String
  | .mk n _ _ _ _ _ => n

def PT.Synonyms : PT → List String
  | .mk _ s _ _ _ _ => s

def PT.Hypers : PT → List String
  | .mk _ _ h _ _ _ => h

def PT.Verbs : PT → List String
  | .mk _ _ _ v _ _ => v

def PT.Father : PT → String
  | .mk _ _ _ _ f _ => f

def PT.Children : PT → PTL
  | .mk _ _ _ _ _ c => c

def PTL.toList : PTL → List PT
  | .nil => []
  | .cons t ts => t :: PTL.toList ts

def PTL.ofList : List PT → PTL
  | [] => .nil
  | t :: ts => .cons t (PTL.ofList ts)

/-- The `Children` list of a node, as a `List`. -/
def PT.kids (t : PT) : List PT := t.Children.toList

/-- Replace the `Children` list of a node (all other fields kept). -/
def PT.setKids : PT → List PT → PT
  | .mk n s h v f _, ks => .mk n s h v f (PTL.ofList ks)

/-- `currentNode.Father = newFather.Name` (source line 376). -/
def PT.withFather : PT → String → PT
  | .mk n s h v _ c, f => .mk n s h v f c

mutual
/-- Number of nodes of a tree; used as a fuel bound for the breadth-first
traversal (it exceeds the height of the tree). -/
def PT.sz : PT → ℕ
  | .mk _ _ _ _ _ cs => 1 + PTL.sz cs
def PTL.sz : PTL → ℕ
  | .nil => 0
  | .cons t ts => PT.sz t + PTL.sz ts
end

/-- Node lookup by path: `getAt t []` is `t` itself, `getAt t (j :: p)`
descends into the `j`-th child.  Paths are the embedding's object identity
for data nodes. -/
def getAt : PT → List ℕ → Option PT
  | t, [] => some t
  | t, j :: p =>
    match t.kids[j]? with
    | some c => getAt c p
    | none => none

/-- `pathPrefix p q = true` iff `p` is a prefix of `q`, i.e. iff the node at
`q` is the node at `p` itself or one of its descendants. -/
def pathPrefix : List ℕ → List ℕ → Bool
  | [], _ => true
  | _ :: _, [] => false
  | a :: as, b :: bs => a == b && pathPrefix as bs

mutual
/-- The recursive `changeHypers` of `draggingEnd` (source lines 407–417):
sets `node.Hypers = hypers` and recurses into every data child with
`node.Name` prepended — including children currently hidden by a collapsed
ancestor, because it walks the raw `Children` lists. -/
def changeHypers : PT → List String → PT
  | .mk n s _ v f cs, hy => .mk n s hy v f (changeHypersKids cs (n :: hy))
def changeHypersKids : PTL → List String → PTL
  | .nil, _ => .nil
  | .cons c cs, hy => .cons (changeHypers c hy) (changeHypersKids cs hy)
end

mutual
/-- The ancestor-path invariant, as a decidable check: `hypersOKb anc t`
holds when `t.Hypers` is exactly `anc` and, recursively, each child's
`Hypers` is `t.Name :: anc`.  `hypersOKb [] root` says every node's
`Hypers` equals the names of its actual ancestors, nearest parent first. -/
def hypersOKb (anc : List String) : PT → Bool
  | .mk n _ h _ _ cs => (h == anc) && hypersOKKids (n :: anc) cs
def hypersOKKids (anc : List String) : PTL → Bool
  | .nil => true
  | .cons c cs => hypersOKb anc c && hypersOKKids anc cs
end

/-- Modify the `j`-th element of a list (identity when out of range). -/
def modifyIdx (f : PT → PT) : ℕ → List PT → List PT
  | _, [] => []
  | 0, c :: r => f c :: r
  | j + 1, c :: r => c :: modifyIdx f j r

/-- `newFather.Children.push(currentNode)` (source line 373): append a child
at the end of the `Children` list of the node at the given path. -/
def appendChildAt : PT → List ℕ → PT → PT
  | t, [], c => t.setKids (t.kids ++ [c])
  | t, j :: rest, c => t.setKids (modifyIdx (fun s => appendChildAt s rest c) j t.kids)

/-- `oldFather.Children.splice(i, 1)` (source lines 369–370): remove the
child at the given (nonempty) path from its parent's `Children` list. -/
def removeChildAt : PT → List ℕ → PT
  | t, [] => t
  | t, [i] => t.setKids (t.kids.eraseIdx i)
  | t, j :: rest :: rest2 => t.setKids (modifyIdx (fun s => removeChildAt s (rest :: rest2)) j t.kids)

/-- The structural mutation of a committed reparent (source lines 368–381):
remove the dragged node `dPath` from its father's `Children`, push it onto
the `Children` of the node at `newF`, set its `Father` to the new father's
name and rewrite `Hypers` recursively via `changeHypers` with
`[newFather.Name, ...newFather.Hypers]`.  Appending before removing is
equivalent to the source's splice-then-push order because the two edits
touch index-disjoint positions.  The result is `none` when a path is
invalid, when the dragged node is the root, or when the target lies inside
the dragged subtree (there the source would corrupt the structure: the push
creates a cycle and `changeHypers` would recurse forever). -/
def moveNode (t : PT) (dPath newF : List ℕ) : Option PT :=
  match getAt t dPath, getAt t newF with
  | some dS, some nf =>
    if dPath = [] ∨ pathPrefix dPath newF = true then none
    else
      some (removeChildAt
        (appendChildAt t newF (changeHypers (dS.withFather nf.Name) (nf.Name :: nf.Hypers)))
        dPath)
  | _, _ => none

/-- Lexicographic strict order on character lists (the order JavaScript's
`<` induces on the names used here). -/
def lexLt : List Char → List Char → Bool
  | [], [] => false
  | [], _ :: _ => true
  | _ :: _, [] => false
  | a :: as, b :: bs => if a < b then true else if b < a then false else lexLt as bs

/-- `a ≤ b` on strings, via `lexLt`. -/
def strLeB (a b : String) : Bool := !(lexLt b.data a.data)

/-- Stable insertion into a name-sorted list of `(original index, node)`
pairs: the new element goes after all existing elements whose name is `≤`
its own, which reproduces the stable ascending sort of
`root.sort((a,b) => d3.ascending(a.data.Name, b.data.Name))`. -/
def insByName (a : ℕ × PT) : List (ℕ × PT) → List (ℕ × PT)
  | [] => [a]
  | b :: r => if strLeB b.2.Name a.2.Name then b :: insByName a r else a :: b :: r

/-- Stable sort by node name of an indexed sibling list. -/
def sortKids (l : List (ℕ × PT)) : List (ℕ × PT) :=
  l.foldl (fun acc a => insByName a acc) []

/-- Pair each element of a sibling list with its original index. -/
def enumIdx (i : ℕ) : List PT → List (ℕ × PT)
  | [] => []
  | c :: r => (i, c) :: enumIdx (i + 1) r

/-- The visible hierarchy children of the node at path `p`: none when `p`
is collapsed (`d.children = null` in the source), otherwise its data
children sorted by name, each carrying its data path. -/
def visKidPairs (C : List (List ℕ)) (pr : List ℕ × PT) : List (List ℕ × PT) :=
  if C.contains pr.1 then []
  else (sortKids (enumIdx 0 pr.2.kids)).map (fun jc => (pr.1 ++ [jc.1], jc.2))

/-- Breadth-first traversal of the visible hierarchy, one level per unit of
fuel: `root.descendants()` iterates in level order (the d3 node iterator
processes a whole level before the next). -/
def bfsAux (C : List (List ℕ)) : ℕ → List (List ℕ × PT) → List (List ℕ × PT)
  | 0, _ => []
  | fuel + 1, level => level ++ bfsAux C fuel (level.flatMap (visKidPairs C))

/-- `root.descendants()` on the visible hierarchy of data `t` with
collapsed-path set `C`: all visible `(path, node)` pairs in breadth-first
order. -/
def bfsPairs (t : PT) (C : List (List ℕ)) : List (List ℕ × PT) :=
  bfsAux C t.sz [([], t)]

/-- A visible hierarchy node as `draggingEnd` sees it: its data path
(object identity), its data `Name` and `Hypers`, and its layout
coordinates. -/
structure VNode where
  path : List ℕ
  name : String
  hypers : List String
  x : ℤ
  y : ℤ
deriving DecidableEq

/-- The visible hierarchy as a list of `VNode`s, positions supplied by the
(external) layout as a function of the path. -/
def visibleNodes (t : PT) (C : List (List ℕ)) (pos : List ℕ → ℤ × ℤ) : List VNode :=
  (bfsPairs t C).map (fun pr => ⟨pr.1, pr.2.Name, pr.2.Hypers, (pos pr.1).1, (pos pr.1).2⟩)

/-- One entry of the `distances` array (source lines 333–344): the squared
distance from the dragged node's release point to `m`, or `none`
(`Infinity`) when `m` is the dragged node itself or when `m.Hypers`
contains every name of `dHypers = d.Hypers ++ [d.Name]`. -/
def candDist (dH : List String) (dPath : List ℕ) (ex ey : ℤ) (m : VNode) : Option ℤ :=
  if (m.path != dPath) && !(dH.all fun v => m.hypers.contains v) then
    some ((ex - m.x) * (ex - m.x) + (ey - m.y) * (ey - m.y))
  else none

/-- Binary minimum with `none` as `Infinity` (the identity). -/
def optMin : Option ℤ → Option ℤ → Option ℤ
  | none, b => b
  | some a, none => some a
  | some a, some b => some (min a b)

/-- `Math.min(...distances)` (source line 347): `Infinity` on the empty
list. -/
def minDist (l : List (Option ℤ)) : Option ℤ := l.foldr optMin none

/-- `distances.indexOf(minDistance)` (source line 348): index of the first
occurrence, length of the list when absent. -/
def idxOf : List (Option ℤ) → Option ℤ → ℕ
  | [], _ => 0
  | a :: r, v => if a = v then 0 else idxOf r v + 1

/-- `minDistance < threshold`, where `none` is `Infinity` (never below any
threshold). -/
def ltInf : Option ℤ → ℤ → Bool
  | some q, b => q < b
  | none, _ => false

/-- The minimum drag travel below which a gesture is click jitter: the
literal `2` of `tranDistance > 2` (source line 364), not a configuration
option. -/
def minTravel : ℤ := 2

/-- Default value of the `dndThreshold` option (source line 13). -/
def dndThresholdDefault : ℤ := 30

/-- The single/double-click timer delay: the literal `300` of
`setTimeout(..., 300)` (source line 116), not a configuration option. -/
def clickDelayMillis : ℕ := 300

/-- The option names destructured by `Tree` (source lines 3–15): the
complete set of configuration keys the engine recognizes. -/
def treeOptionNames : List String :=
  ["children", "tree", "diagonal", "width", "nodeCircleRadius", "labelSpacing",
   "nodeNormClass", "nodeLeafClass", "nodeCollClass", "dndThreshold",
   "transitionDuration"]

/-- The `distances` array of `draggingEnd` (source lines 333–344), aligned
with `nodes`. -/
def dragDists (nodes : List VNode) (d : VNode) : List (Option ℤ) :=
  nodes.map (candDist (d.hypers ++ [d.name]) d.path d.x d.y)

/-- `root.descendants()[distances.indexOf(Math.min(...distances))]`
(source lines 346–351): the candidate at minimal distance, earliest in the
traversal order of `nodes` on ties. -/
def closestIn (nodes : List VNode) (d : VNode) : Option VNode :=
  nodes[idxOf (dragDists nodes d) (minDist (dragDists nodes d))]?

/-- The decision of `draggingEnd` (source lines 322–405) for a non-root
dragged node `d` released at `(d.x, d.y)` with drag-start position
`(x0, y0)`: `some c` means the gesture commits a reparent onto `c`,
`none` means it reverts.  The commit condition is the source's
`tranDistance > 2 && minDistance < dndThreshold && oldFather !== newFather`,
with both distance comparisons squared. -/
def draggingEnd (nodes : List VNode) (d : VNode) (x0 y0 : ℤ) (parentPath : List ℕ)
    (thr : ℤ) : Option VNode :=
  match closestIn nodes d with
  | none => none
  | some c =>
    if (d.x - x0) * (d.x - x0) + (d.y - y0) * (d.y - y0) > minTravel * minTravel
        ∧ ltInf (minDist (dragDists nodes d)) (thr * thr) = true
        ∧ c.path ≠ parentPath then
      some c
    else none

/-- A full drag gesture on the engine state `(data, collapsed set)`:
the decision of `draggingEnd` followed, on commit, by the structural
mutation and the full rebuild (`graphUpdate(event, null)`), which clears
every collapse flag.  On revert the state is untouched.  The dragged
node's hierarchy object carries its data `Name`/`Hypers` and its released
coordinates; its drag-start position is its layout position `pos dPath`. -/
def dragEndStep (t : PT) (C : List (List ℕ)) (pos : List ℕ → ℤ × ℤ) (dPath : List ℕ)
    (ex ey : ℤ) (thr : ℤ) : PT × List (List ℕ) :=
  if dPath = [] then (t, C)
  else
    match getAt t dPath with
    | none => (t, C)
    | some dS =>
      match draggingEnd (visibleNodes t C pos) ⟨dPath, dS.Name, dS.Hypers, ex, ey⟩
          (pos dPath).1 (pos dPath).2 dPath.dropLast thr with
      | some c =>
        match moveNode t dPath c.path with
        | some t2 => (t2, [])
        | none => (t, C)
      | none => (t, C)

/-- Toggle the collapse flag of the node at path `p`. -/
def toggleC (C : List (List ℕ)) (p : List ℕ) : List (List ℕ) :=
  if C.contains p then C.filter (fun q => q != p) else p :: C

/-- A collapse/expand toggle on the engine state: it changes only the
collapse set, never the data tree (source lines 131–143 touch only
`d.children`). -/
def toggleStep (s : PT × List (List ℕ)) (p : List ℕ) : PT × List (List ℕ) :=
  (s.1, toggleC s.2 p)

/-- The stable id of the (first) node named `nm`: ids are assigned at
(re)build time as indices of the full breadth-first traversal
(`root.descendants().forEach((d, i) => d.id = i)`, source lines 62–65),
and the hierarchy is fully expanded at build time. -/
def idOfName (t : PT) (nm : String) : Option ℕ :=
  (bfsPairs t []).findIdx? (fun pr => pr.2.Name == nm)

/-- The mutable visibility fields of one hierarchy node, as the click
handler sees them: `children` (`null` when collapsed or leaf) and `hidden`
(the `_children` snapshot, absent for a true leaf).  The child lists hold
the ids of the child node objects, so equality is object identity. -/
structure HView where
  children : Option (List ℕ)
  hidden : Option (List ℕ)
deriving DecidableEq

/-- The collapse/expand toggle of the double-click handler (source lines
131–143): guarded by `if (d._children)` (no-op on a true leaf), otherwise
`d.children = d.children ? null : d._children`. -/
def clickToggle (d : HView) : HView :=
  match d.hidden with
  | none => d
  | some h =>
    { d with children := match d.children with
                         | some _ => none
                         | none => some h }

/-- One engine transition: a collapse toggle or a complete drag gesture
(with arbitrary layout positions and release point, since the layout and
the pointer are external). -/
inductive Step : (PT × List (List ℕ)) → (PT × List (List ℕ)) → Prop
  | toggle (s : PT × List (List ℕ)) (p : List ℕ) : Step s (toggleStep s p)
  | drag (s : PT × List (List ℕ)) (pos : List ℕ → ℤ × ℤ) (dPath : List ℕ) (ex ey : ℤ) :
      Step s (dragEndStep s.1 s.2 pos dPath ex ey dndThresholdDefault)

/-- States reachable from a freshly built tree `t0` (no collapsed nodes)
by any sequence of toggles and drag gestures. -/
inductive Reachable (t0 : PT) : (PT × List (List ℕ)) → Prop
  | start : Reachable t0 (t0, [])
  | step {s s2 : PT × List (List ℕ)} : Reachable t0 s → Step s s2 → Reachable t0 s2

/-- A hierarchy node of `d3.hierarchy(data, d => d.Children)` after
`root.sort`: the raw datum and the name-sorted hierarchy children. -/
inductive HT : Type where
  | mk (dat : PT) (hkids : List HT)

/-- The raw datum of a hierarchy node (`node.data`). -/
def HT.dat : HT → PT
  | .mk d _ => d

/-- Build the sorted hierarchy (fuel-bounded recursion; `PT.sz` fuel is
enough since it exceeds the height). -/
def buildH : ℕ → PT → HT
  | 0, t => .mk t []
  | fuel + 1, t => .mk t ((sortKids (enumIdx 0 t.kids)).map (fun jc => buildH fuel jc.2))

/-- `build X`: the one-time conversion of a raw nested hierarchy into the
engine's hierarchy (`d3.hierarchy` + `root.sort`).  The raw data objects
are wrapped, not copied: `node.data` is the input node itself. -/
def build (t : PT) : HT := buildH t.sz t

/-- The plain tree the save path serializes: after any mutations,
`updatedDataSave` serializes `data`, which is `root.data` (source lines
384, 628) — the raw data tree the hierarchy wraps. -/
def toPlainTree (h : HT) : PT := h.dat

/-- Pre-order (depth-first) traversal of the visible hierarchy, stated for
comparison with the source's breadth-first `root.descendants()` order:
this definition follows the claim's words ("pre-order traversal order of
the visible tree"), not the source. -/
def specPreAux (C : List (List ℕ)) : ℕ → (List ℕ × PT) → List (List ℕ × PT)
  | 0, _ => []
  | fuel + 1, pr => pr :: (visKidPairs C pr).flatMap (specPreAux C fuel)

/-- The visible hierarchy in the claim's pre-order, as `VNode`s (same
shape as `visibleNodes`, different traversal order). -/
def specPreorderNodes (t : PT) (C : List (List ℕ)) (pos : List ℕ → ℤ × ℤ) : List VNode :=
  (specPreAux C t.sz ([], t)).map (fun pr => ⟨pr.1, pr.2.Name, pr.2.Hypers, (pos pr.1).1, (pos pr.1).2⟩)

/-! ## Concrete states used by witnesses and counterexamples -/

/-- Shorthand for a node with empty `Synonyms`/`Verbs`. -/
def mkN (n : String) (hy : List String) (fa : String) (cs : List PT) : PT :=
  .mk n [] hy [] fa (PTL.ofList cs)

/-- `R ── A, B;  B ── C;  C ── D` with correct `Hypers` everywhere. -/
def exTree : PT :=
  mkN "R" [] ""
    [mkN "A" ["R"] "R" [],
     mkN "B" ["R"] "R"
       [mkN "C" ["B", "R"] "B"
         [mkN "D" ["C", "B", "R"] "C" []]]]

/-- `exTree` after the committed reparent of `D` (path `[1,0,0]`) onto `A`
(path `[0]`). -/
def exTree2 : PT :=
  mkN "R" [] ""
    [mkN "A" ["R"] "R" [mkN "D" ["A", "R"] "A" []],
     mkN "B" ["R"] "R"
       [mkN "C" ["B", "R"] "B" []]]

/-- Layout positions for `exTree`. -/
def pos7 (p : List ℕ) : ℤ × ℤ :=
  if p = [] then (0, 0)
  else if p = [0] then (50, 10)
  else if p = [1] then (50, -10)
  else if p = [1, 0] then (100, -10)
  else if p = [1, 0, 0] then (150, -10)
  else (0, 0)

/-- The subtree of `exTree` rooted at `B` (path `[1]`). -/
def exB : PT :=
  mkN "B" ["R"] "R"
    [mkN "C" ["B", "R"] "B"
      [mkN "D" ["C", "B", "R"] "C" []]]

/-- The visible hierarchy node of `exTree` at path `[1, 0]` (node `C`). -/
def exM4 : VNode := ⟨[1, 0], "C", ["B", "R"], 100, -10⟩

/-- `R ── A, B;  B ── H`, used with `B` collapsed (`C = [[1]]`). -/
def exT4 : PT :=
  mkN "R" [] ""
    [mkN "A" ["R"] "R" [],
     mkN "B" ["R"] "R" [mkN "H" ["B", "R"] "B" []]]

/-- Layout positions for `exT4`; the hidden node `H` sits exactly at the
release point `(100, 100)` of the drag of `A`. -/
def pos4 (p : List ℕ) : ℤ × ℤ :=
  if p = [] then (0, 0)
  else if p = [0] then (0, 40)
  else if p = [1] then (200, 0)
  else if p = [1, 0] then (100, 100)
  else (0, 0)

/-- `R ── A, B, D;  A ── C`: dragging `D`, the candidates `B` and `C` are
tied at squared distance `25` from the release point. -/
def exT10 : PT :=
  mkN "R" [] ""
    [mkN "A" ["R"] "R" [mkN "C" ["A", "R"] "A" []],
     mkN "B" ["R"] "R" [],
     mkN "D" ["R"] "R" []]

/-- Layout positions for `exT10`. -/
def pos10 (p : List ℕ) : ℤ × ℤ :=
  if p = [] then (100, 100)
  else if p = [0] then (50, 50)
  else if p = [1] then (0, 0)
  else if p = [0, 0] then (10, 0)
  else if p = [2] then (5, 40)
  else (0, 0)

/-! ## Basic lemmas about the list helpers -/

theorem PTL.toList_ofList : ∀ l : List PT, (PTL.ofList l).toList = l
  | [] => rfl
  | t :: ts => by simp [PTL.ofList, PTL.toList, PTL.toList_ofList ts]

theorem mem_insByName {x a : ℕ × PT} : ∀ {l : List (ℕ × PT)},
    x ∈ insByName a l → x = a ∨ x ∈ l
  | [], h => by simpa [insByName] using h
  | b :: r, h => by
    cases hle : strLeB b.2.Name a.2.Name with
    | true =>
      simp only [insByName] at h
      rw [if_pos hle] at h
      rcases List.mem_cons.mp h with h2 | h2
      · exact Or.inr (List.mem_cons.mpr (Or.inl h2))
      · rcases mem_insByName h2 with h3 | h3
        · exact Or.inl h3
        · exact Or.inr (List.mem_cons.mpr (Or.inr h3))
    | false =>
      simp only [insByName] at h
      rw [if_neg (by simp [hle])] at h
      rcases List.mem_cons.mp h with h2 | h2
      · exact Or.inl h2
      · exact Or.inr h2

theorem mem_sortKids_aux {x : ℕ × PT} : ∀ (l acc : List (ℕ × PT)),
    x ∈ l.foldl (fun acc a => insByName a acc) acc → x ∈ acc ∨ x ∈ l
  | [], acc, h => Or.inl h
  | a :: r, acc, h => by
    rcases mem_sortKids_aux r (insByName a acc) h with h2 | h2
    · rcases mem_insByName h2 with h3 | h3
      · exact Or.inr (by simp [h3])
      · exact Or.inl h3
    · exact Or.inr (List.mem_cons_of_mem a h2)

theorem mem_sortKids {x : ℕ × PT} {l : List (ℕ × PT)} (h : x ∈ sortKids l) : x ∈ l := by
  rcases mem_sortKids_aux l [] h with h2 | h2
  · simp at h2
  · exact h2

theorem mem_enumIdx {x : ℕ × PT} : ∀ {l : List PT} {i : ℕ},
    x ∈ enumIdx i l → ∃ k, x.1 = i + k ∧ l[k]? = some x.2
  | [], _, h => by simp [enumIdx] at h
  | c :: r, i, h => by
    simp only [enumIdx, List.mem_cons] at h
    rcases h with h | h
    · exact ⟨0, by simp [h]⟩
    · rcases mem_enumIdx h with ⟨k, hk1, hk2⟩
      exact ⟨k + 1, by omega, by simpa using hk2⟩

theorem mem_modifyIdx {x : PT} {f : PT → PT} : ∀ {j : ℕ} {l : List PT},
    x ∈ modifyIdx f j l → x ∈ l ∨ ∃ y, l[j]? = some y ∧ x = f y
  | _, [], h => by simp [modifyIdx] at h
  | 0, c :: r, h => by
    simp only [modifyIdx, List.mem_cons] at h
    rcases h with h | h
    · exact Or.inr ⟨c, by simp, h⟩
    · exact Or.inl (List.mem_cons_of_mem c h)
  | j + 1, c :: r, h => by
    simp only [modifyIdx, List.mem_cons] at h
    rcases h with h | h
    · exact Or.inl (by simp [h])
    · rcases mem_modifyIdx h with h2 | ⟨y, hy1, hy2⟩
      · exact Or.inl (List.mem_cons_of_mem c h2)
      · exact Or.inr ⟨y, by simpa using hy1, hy2⟩

theorem minDist_mem {q : ℤ} : ∀ {l : List (Option ℤ)},
    minDist l = some q → some q ∈ l
  | [], h => by simp [minDist] at h
  | a :: r, h => by
    rw [minDist, List.foldr_cons] at h
    rcases ha : a with _ | av
    · rw [ha] at h
      simp only [optMin] at h
      exact List.mem_cons_of_mem _ (minDist_mem (by rw [minDist]; exact h))
    · rw [ha] at h
      rcases hr : r.foldr optMin none with _ | rv <;> rw [hr] at h <;>
        simp only [optMin, Option.some.injEq] at h
      · simp [ha, h]
      · rcases le_total av rv with hle | hle
        · have hq : q = av := by rw [← h]; exact min_eq_left hle
          simp [ha, hq]
        · have hq : q = rv := by rw [← h]; exact min_eq_right hle
          refine List.mem_cons_of_mem _ (minDist_mem ?_)
          rw [minDist, hr, hq]

theorem idxOf_cons_eq {a v : Option ℤ} (r : List (Option ℤ)) (ha : a = v) :
    idxOf (a :: r) v = 0 := by simp [idxOf, ha]

theorem idxOf_cons_ne {a v : Option ℤ} (r : List (Option ℤ)) (ha : ¬ a = v) :
    idxOf (a :: r) v = idxOf r v + 1 := by simp [idxOf, ha]

theorem idxOf_get {v : Option ℤ} : ∀ {l : List (Option ℤ)},
    v ∈ l → l[idxOf l v]? = some v
  | [], h => by simp at h
  | a :: r, h => by
    by_cases ha : a = v
    · rw [idxOf_cons_eq r ha, List.getElem?_cons_zero, ha]
    · have hv : v ∈ r := by
        rcases List.mem_cons.mp h with h2 | h2
        · exact absurd h2.symm ha
        · exact h2
      rw [idxOf_cons_ne r ha, List.getElem?_cons_succ]
      exact idxOf_get hv

theorem idxOf_first {v : Option ℤ} : ∀ {l : List (Option ℤ)} {j : ℕ},
    j < idxOf l v → l[j]? ≠ some v
  | [], j, h => by simp [idxOf] at h
  | a :: r, j, h => by
    by_cases ha : a = v
    · rw [idxOf_cons_eq r ha] at h
      omega
    · rcases j with _ | j
      · rw [List.getElem?_cons_zero]
        exact fun he => ha (Option.some.inj he)
      · rw [idxOf_cons_ne r ha] at h
        rw [List.getElem?_cons_succ]
        exact idxOf_first (by omega)

/-! ## Lemmas about `getAt` and the ancestor-path invariant -/

theorem getAt_append (q : List ℕ) : ∀ (p : List ℕ) (t : PT),
    getAt t (p ++ q) = (getAt t p).bind (fun s => getAt s q)
  | [], t => by simp [getAt]
  | j :: p, t => by
    rcases h : t.kids[j]? with _ | c
    · simp [getAt, h]
    · simp [getAt, h, getAt_append q p c]

theorem hypersOKKids_mem {anc : List String} {c : PT} : ∀ {cs : PTL},
    hypersOKKids anc cs = true → c ∈ cs.toList → hypersOKb anc c = true
  | .nil, _, hm => by simp [PTL.toList] at hm
  | .cons d ds, h, hm => by
    simp only [hypersOKKids, Bool.and_eq_true] at h
    simp only [PTL.toList, List.mem_cons] at hm
    rcases hm with h2 | h2
    · rw [h2]; exact h.1
    · exact hypersOKKids_mem h.2 h2

theorem hypersOKb_hypers {anc : List String} {t : PT} (h : hypersOKb anc t = true) :
    t.Hypers = anc := by
  rcases t with ⟨n, sy, hy, vb, fa, cs⟩
  simp only [hypersOKb, Bool.and_eq_true, beq_iff_eq] at h
  exact h.1

theorem hypersOKb_kids {anc : List String} {t : PT} (h : hypersOKb anc t = true) :
    hypersOKKids (t.Name :: anc) t.Children = true := by
  rcases t with ⟨n, sy, hy, vb, fa, cs⟩
  simp only [hypersOKb, Bool.and_eq_true] at h
  exact h.2

theorem hypersOK_getAt : ∀ (p : List ℕ) {t : PT} {anc : List String} {s : PT},
    hypersOKb anc t = true → getAt t p = some s → hypersOKb s.Hypers s = true
  | [], t, anc, s, h, hg => by
    simp only [getAt, Option.some.injEq] at hg
    cases hg
    rw [hypersOKb_hypers h]
    exact h
  | j :: p, t, anc, s, h, hg => by
    rcases hk : t.kids[j]? with _ | c
    · simp [getAt, hk] at hg
    · have hc : hypersOKb (t.Name :: anc) c = true :=
        hypersOKKids_mem (hypersOKb_kids h) (List.getElem?_mem hk)
      have hg2 : getAt c p = some s := by simpa [getAt, hk] using hg
      exact hypersOK_getAt p hc hg2

theorem hypers_sub : ∀ (p : List ℕ) {t : PT} {anc : List String} {s : PT} {v : String},
    hypersOKb anc t = true → p ≠ [] → getAt t p = some s →
    (v = t.Name ∨ v ∈ anc) → v ∈ s.Hypers
  | [], _, _, _, _, _, hne, _, _ => absurd rfl hne
  | j :: p, t, anc, s, v, h, _, hg, hv => by
    rcases hk : t.kids[j]? with _ | c
    · simp [getAt, hk] at hg
    · have hc : hypersOKb (t.Name :: anc) c = true :=
        hypersOKKids_mem (hypersOKb_kids h) (List.getElem?_mem hk)
      have hg2 : getAt c p = some s := by simpa [getAt, hk] using hg
      rcases hp : p with _ | ⟨j2, p2⟩
      · rw [hp] at hg2
        simp only [getAt, Option.some.injEq] at hg2
        cases hg2
        rw [hypersOKb_hypers hc]
        exact List.mem_cons.mpr hv
      · rw [hp] at hg2
        exact hypers_sub (j2 :: p2) hc (by simp) hg2 (Or.inr (List.mem_cons.mpr hv))

/-! ## Soundness of the breadth-first traversal -/

theorem visKidPairs_get {C : List (List ℕ)} {pr pr2 : List ℕ × PT}
    (h : pr2 ∈ visKidPairs C pr) :
    ∃ j, pr2.1 = pr.1 ++ [j] ∧ pr.2.kids[j]? = some pr2.2 := by
  simp only [visKidPairs] at h
  by_cases hc : C.contains pr.1 = true
  · rw [if_pos hc] at h; simp at h
  · rw [if_neg hc] at h
    rcases List.mem_map.mp h with ⟨jc, hjc, hmap⟩
    rcases mem_enumIdx (mem_sortKids hjc) with ⟨k, hk1, hk2⟩
    refine ⟨jc.1, by rw [← hmap], ?_⟩
    rw [Nat.zero_add] at hk1
    rw [← hmap, hk1]
    exact hk2

theorem bfsAux_getAt {t : PT} {C : List (List ℕ)} : ∀ (fuel : ℕ) (level : List (List ℕ × PT)),
    (∀ pr ∈ level, getAt t pr.1 = some pr.2) →
    ∀ pr ∈ bfsAux C fuel level, getAt t pr.1 = some pr.2
  | 0, level, _, pr, hpr => by simp [bfsAux] at hpr
  | fuel + 1, level, hlev, pr, hpr => by
    simp only [bfsAux, List.mem_append] at hpr
    rcases hpr with hpr | hpr
    · exact hlev pr hpr
    · refine bfsAux_getAt fuel _ ?_ pr hpr
      intro pr2 hpr2
      rcases List.mem_flatMap.mp hpr2 with ⟨pr1, hpr1, hk⟩
      rcases visKidPairs_get hk with ⟨j, hj1, hj2⟩
      rw [hj1, getAt_append, hlev pr1 hpr1]
      simp [getAt, hj2]

theorem bfsPairs_getAt {t : PT} {C : List (List ℕ)} {pr : List ℕ × PT}
    (h : pr ∈ bfsPairs t C) : getAt t pr.1 = some pr.2 := by
  refine bfsAux_getAt _ _ ?_ pr h
  intro pr2 hpr2
  simp only [List.mem_singleton] at hpr2
  rw [hpr2]
  rfl

theorem visibleNodes_mem {t : PT} {C : List (List ℕ)} {pos : List ℕ → ℤ × ℤ} {m : VNode}
    (h : m ∈ visibleNodes t C pos) :
    ∃ s, getAt t m.path = some s ∧ m.name = s.Name ∧ m.hypers = s.Hypers := by
  rcases List.mem_map.mp h with ⟨pr, hpr, hmap⟩
  exact ⟨pr.2, by rw [← hmap]; exact bfsPairs_getAt hpr, by rw [← hmap], by rw [← hmap]⟩

/-! ## The reparent mutation preserves the ancestor-path invariant -/

theorem hypersOKKids_toList (anc : List String) : ∀ (cs : PTL),
    hypersOKKids anc cs = cs.toList.all (hypersOKb anc)
  | .nil => rfl
  | .cons c cs => by
    simp [hypersOKKids, PTL.toList, List.all_cons, hypersOKKids_toList anc cs]

theorem hypersOKb_eq {anc : List String} (t : PT) :
    hypersOKb anc t = ((t.Hypers == anc) && t.kids.all (hypersOKb (t.Name :: anc))) := by
  rcases t with ⟨n, sy, hy, vb, fa, cs⟩
  simp [hypersOKb, PT.kids, PT.Hypers, PT.Name, PT.Children, hypersOKKids_toList]

theorem hypersOKb_setKids {anc : List String} {t : PT} {ks : List PT} :
    hypersOKb anc (t.setKids ks) = ((t.Hypers == anc) && ks.all (hypersOKb (t.Name :: anc))) := by
  rcases t with ⟨n, sy, hy, vb, fa, cs⟩
  simp [PT.setKids, hypersOKb, PT.Hypers, PT.Name, hypersOKKids_toList, PTL.toList_ofList]

theorem hypersOKb_all_kids {anc : List String} {t : PT} (h : hypersOKb anc t = true) :
    t.kids.all (hypersOKb (t.Name :: anc)) = true := by
  rw [hypersOKb_eq, Bool.and_eq_true] at h
  exact h.2

mutual
theorem changeHypers_OK : ∀ (t : PT) (hy : List String),
    hypersOKb hy (changeHypers t hy) = true
  | .mk n sy _ vb fa cs, hy => by
    simp [changeHypers, hypersOKb, changeHypersKids_OK cs (n :: hy)]
theorem changeHypersKids_OK : ∀ (cs : PTL) (hy : List String),
    hypersOKKids hy (changeHypersKids cs hy) = true
  | .nil, _ => rfl
  | .cons c cs, hy => by
    simp [changeHypersKids, hypersOKKids, changeHypers_OK c hy, changeHypersKids_OK cs hy]
end

theorem appendChildAt_OK : ∀ (pf : List ℕ) {t : PT} {anc : List String} {nf c : PT},
    hypersOKb anc t = true → getAt t pf = some nf →
    hypersOKb (nf.Name :: nf.Hypers) c = true →
    hypersOKb anc (appendChildAt t pf c) = true
  | [], t, anc, nf, c, h, hg, hc => by
    simp only [getAt, Option.some.injEq] at hg
    cases hg
    have hhy := hypersOKb_hypers h
    simp only [appendChildAt]
    rw [hypersOKb_setKids]
    rw [Bool.and_eq_true]
    refine ⟨by simp [hhy], ?_⟩
    rw [List.all_append, Bool.and_eq_true]
    refine ⟨hypersOKb_all_kids h, ?_⟩
    rw [hhy] at hc
    simp [hc]
  | j :: rest, t, anc, nf, c, h, hg, hc => by
    rcases hk : t.kids[j]? with _ | y
    · simp [getAt, hk] at hg
    · have hg2 : getAt y rest = some nf := by simpa [getAt, hk] using hg
      have hhy := hypersOKb_hypers h
      have hall := hypersOKb_all_kids h
      simp only [appendChildAt]
      rw [hypersOKb_setKids]
      rw [Bool.and_eq_true]
      refine ⟨by simp [hhy], ?_⟩
      rw [List.all_eq_true]
      intro x hx
      rcases mem_modifyIdx hx with hmem | ⟨z, hz1, hz2⟩
      · exact List.all_eq_true.mp hall x hmem
      · rw [hk] at hz1
        cases Option.some.inj hz1
        rw [hz2]
        have hy2 : hypersOKb (t.Name :: anc) y = true :=
          List.all_eq_true.mp hall y (List.getElem?_mem hk)
        exact appendChildAt_OK rest hy2 hg2 hc

theorem removeChildAt_OK : ∀ (p : List ℕ) {t : PT} {anc : List String},
    hypersOKb anc t = true → hypersOKb anc (removeChildAt t p) = true
  | [], t, anc, h => by simpa [removeChildAt] using h
  | [i], t, anc, h => by
    have hhy := hypersOKb_hypers h
    have hall := hypersOKb_all_kids h
    simp only [removeChildAt]
    rw [hypersOKb_setKids]
    rw [Bool.and_eq_true]
    refine ⟨by simp [hhy], ?_⟩
    rw [List.all_eq_true]
    intro x hx
    exact List.all_eq_true.mp hall x (List.mem_of_mem_eraseIdx hx)
  | j :: r1 :: r2, t, anc, h => by
    have hhy := hypersOKb_hypers h
    have hall := hypersOKb_all_kids h
    simp only [removeChildAt]
    rw [hypersOKb_setKids]
    rw [Bool.and_eq_true]
    refine ⟨by simp [hhy], ?_⟩
    rw [List.all_eq_true]
    intro x hx
    rcases mem_modifyIdx hx with hmem | ⟨z, hz1, hz2⟩
    · exact List.all_eq_true.mp hall x hmem
    · rw [hz2]
      exact removeChildAt_OK (r1 :: r2) (List.all_eq_true.mp hall z (List.getElem?_mem hz1))

theorem moveNode_OK {t t2 : PT} {dPath newF : List ℕ}
    (h : hypersOKb [] t = true) (hm : moveNode t dPath newF = some t2) :
    hypersOKb [] t2 = true := by
  unfold moveNode at hm
  split at hm
  · split at hm
    · cases hm
    · cases Option.some.inj hm
      rename_i dS nf hd hn hif
      exact removeChildAt_OK dPath (appendChildAt_OK newF h hn (changeHypers_OK _ _))
  · cases hm

/-! ## Analysis of the drag-end decision -/

theorem pathPrefix_exists : ∀ {p q : List ℕ}, pathPrefix p q = true → ∃ r, q = p ++ r
  | [], q, _ => ⟨q, rfl⟩
  | _ :: _, [], h => by simp [pathPrefix] at h
  | a :: as, b :: bs, h => by
    simp only [pathPrefix, Bool.and_eq_true, beq_iff_eq] at h
    rcases pathPrefix_exists h.2 with ⟨r, hr⟩
    exact ⟨r, by simp [h.1, hr]⟩

theorem pathPrefix_append : ∀ (p r : List ℕ), pathPrefix p (p ++ r) = true
  | [], _ => rfl
  | a :: as, r => by simp [pathPrefix, pathPrefix_append as r]

theorem draggingEnd_some {nodes : List VNode} {d : VNode} {x0 y0 : ℤ} {pp : List ℕ}
    {thr : ℤ} {c : VNode} (h : draggingEnd nodes d x0 y0 pp thr = some c) :
    closestIn nodes d = some c
    ∧ (d.x - x0) * (d.x - x0) + (d.y - y0) * (d.y - y0) > minTravel * minTravel
    ∧ ltInf (minDist (dragDists nodes d)) (thr * thr) = true
    ∧ c.path ≠ pp := by
  unfold draggingEnd at h
  split at h
  · cases h
  · split at h
    · rename_i c2 hc2 hcond
      cases Option.some.inj h
      exact ⟨hc2, hcond.1, hcond.2.1, hcond.2.2⟩
    · cases h

theorem draggingEnd_commit {nodes : List VNode} {d : VNode} {x0 y0 : ℤ} {pp : List ℕ}
    {thr : ℤ} {c : VNode} (hc : closestIn nodes d = some c)
    (h1 : (d.x - x0) * (d.x - x0) + (d.y - y0) * (d.y - y0) > minTravel * minTravel)
    (h2 : ltInf (minDist (dragDists nodes d)) (thr * thr) = true)
    (h3 : c.path ≠ pp) :
    draggingEnd nodes d x0 y0 pp thr = some c := by
  unfold draggingEnd
  rw [hc]
  exact if_pos ⟨h1, h2, h3⟩

theorem closest_candDist {nodes : List VNode} {d : VNode} {c : VNode} {q : ℤ}
    (hc : closestIn nodes d = some c)
    (hmin : minDist (dragDists nodes d) = some q) :
    candDist (d.hypers ++ [d.name]) d.path d.x d.y c = some q := by
  have hidx := idxOf_get (minDist_mem hmin)
  unfold closestIn at hc
  rw [hmin] at hc
  unfold dragDists at hc hidx
  rw [List.getElem?_map, hc] at hidx
  exact (by simpa using hidx.symm : some q = _).symm

theorem closestIn_mem {nodes : List VNode} {d : VNode} {c : VNode}
    (hc : closestIn nodes d = some c) : c ∈ nodes := by
  unfold closestIn at hc
  exact List.getElem?_mem hc

theorem candDist_some {dH : List String} {dPath : List ℕ} {ex ey q : ℤ} {m : VNode}
    (h : candDist dH dPath ex ey m = some q) :
    m.path ≠ dPath ∧ dH.all (fun v => m.hypers.contains v) = false := by
  unfold candDist at h
  split at h
  · rename_i hcond
    rw [Bool.and_eq_true] at hcond
    refine ⟨bne_iff_ne.mp hcond.1, ?_⟩
    have := hcond.2
    simp only [Bool.not_eq_true'] at this
    exact this
  · cases h

/-- Core exclusion: in a state satisfying the ancestor-path invariant, any
committed drop target lies outside the dragged node's subtree. -/
theorem commit_not_descendant {t : PT} {C : List (List ℕ)} {pos : List ℕ → ℤ × ℤ}
    {dPath : List ℕ} {dS : PT} {x0 y0 ex ey : ℤ} {pp : List ℕ} {thr : ℤ} {c : VNode}
    (hok : hypersOKb [] t = true)
    (hd : getAt t dPath = some dS)
    (hde : draggingEnd (visibleNodes t C pos) ⟨dPath, dS.Name, dS.Hypers, ex, ey⟩
      x0 y0 pp thr = some c) :
    pathPrefix dPath c.path = false := by
  obtain ⟨hc, _, hlt, _⟩ := draggingEnd_some hde
  rcases hminD : minDist (dragDists (visibleNodes t C pos) ⟨dPath, dS.Name, dS.Hypers, ex, ey⟩)
      with _ | q
  · rw [hminD] at hlt
    simp [ltInf] at hlt
  · have hcd := closest_candDist hc hminD
    obtain ⟨hne, hall⟩ := candDist_some hcd
    by_contra hpre
    simp only [Bool.not_eq_false] at hpre
    obtain ⟨r, hr⟩ := pathPrefix_exists hpre
    have hrne : r ≠ [] := by
      intro h0
      rw [h0, List.append_nil] at hr
      exact hne hr
    obtain ⟨s, hgs, hsname, hshyp⟩ := visibleNodes_mem (closestIn_mem hc)
    rw [hr, getAt_append, hd] at hgs
    have hgs2 : getAt dS r = some s := hgs
    have hds : hypersOKb dS.Hypers dS = true := hypersOK_getAt dPath hok hd
    have hmem : ∀ v : String, v = dS.Name ∨ v ∈ dS.Hypers → v ∈ s.Hypers :=
      fun v hv => hypers_sub r hds hrne hgs2 hv
    have hall2 : (dS.Hypers ++ [dS.Name]).all (fun v => c.hypers.contains v) = true := by
      rw [List.all_eq_true]
      intro v hv
      rw [List.mem_append, List.mem_singleton] at hv
      rw [List.elem_iff, hshyp]
      exact hmem v hv.symm
    rw [hall] at hall2
    cases hall2

/-- A drag gesture preserves the ancestor-path invariant: reverts change
nothing, and a committed `moveNode` preserves it. -/
theorem dragEndStep_OK {t : PT} {C : List (List ℕ)} {pos : List ℕ → ℤ × ℤ}
    {dPath : List ℕ} {ex ey thr : ℤ} (h : hypersOKb [] t = true) :
    hypersOKb [] (dragEndStep t C pos dPath ex ey thr).1 = true := by
  unfold dragEndStep
  split
  · exact h
  · split
    · exact h
    · split
      · split
        · rename_i t2 hmv
          exact moveNode_OK h hmv
        · exact h
      · exact h

/-- In an invariant state, the `Hypers` of any visible strict descendant of
the dragged node contain every name of `dHypers = d.Hypers ++ [d.Name]`. -/
theorem descendant_all_contains {t : PT} {C : List (List ℕ)} {pos : List ℕ → ℤ × ℤ}
    {dPath : List ℕ} {dS : PT} {m : VNode}
    (hok : hypersOKb [] t = true) (hd : getAt t dPath = some dS)
    (hm : m ∈ visibleNodes t C pos) (hpre : pathPrefix dPath m.path = true)
    (hne : m.path ≠ dPath) :
    (dS.Hypers ++ [dS.Name]).all (fun v => m.hypers.contains v) = true := by
  obtain ⟨r, hr⟩ := pathPrefix_exists hpre
  have hrne : r ≠ [] := by
    intro h0
    rw [h0, List.append_nil] at hr
    exact hne hr
  obtain ⟨s, hgs, hsname, hshyp⟩ := visibleNodes_mem hm
  rw [hr, getAt_append, hd] at hgs
  have hgs2 : getAt dS r = some s := hgs
  have hds : hypersOKb dS.Hypers dS = true := hypersOK_getAt dPath hok hd
  rw [List.all_eq_true]
  intro v hv
  rw [List.mem_append, List.mem_singleton] at hv
  rw [List.elem_iff, hshyp]
  exact hypers_sub r hds hrne hgs2 hv.symm

/-! ## The claims -/

/-- C1: in every reachable state of the tree — starting from a correctly
built tree (each node's `Hypers` equal to its actual ancestors' names,
nearest parent first) and applying any sequence of collapse/expand toggles
and drag gestures, committed reparents included — every node's `Hypers`
equals the exact sequence of its actual ancestors' names, nearest parent
first; a committed reparent recomputes the path of the moved node and,
recursively via `changeHypers` over the raw `Children` lists, of every node
in its subtree, including nodes hidden inside collapsed subtrees. -/
theorem c1_ancestor_path_invariant {t0 : PT} {s : PT × List (List ℕ)}
    (h0 : hypersOKb [] t0 = true) (hr : Reachable t0 s) :
    hypersOKb [] s.1 = true := by
  induction hr with
  | start => exact h0
  | step _ hstep ih =>
    cases hstep with
    | toggle p => exact ih
    | drag pos dPath ex ey => exact dragEndStep_OK ih

/-- Witness for C1: one committed reparent (`D` onto `A` in `exTree`)
reaches a state that still satisfies the ancestor-path invariant. -/
theorem c1_ancestor_path_invariant_witness :
    hypersOKb [] (dragEndStep exTree [] pos7 [1, 0, 0] 51 10 dndThresholdDefault).1 = true :=
  c1_ancestor_path_invariant (by decide)
    (Reachable.step Reachable.start (Step.drag (exTree, []) pos7 [1, 0, 0] 51 10))

/-- C2: a drag-end reparent never commits with the dragged node itself or
any of its descendants as the new parent: `candDist` assigns `Infinity`
(`none`) to the dragged node and to every node whose `Hypers` contains all
names of the dragged node's path plus its own name, so in any state
satisfying the ancestor-path invariant the committed new parent lies
outside the dragged node's subtree (`pathPrefix` is false, which also rules
out the node itself) and no cycle is created. -/
theorem c2_no_cycle {t : PT} {C : List (List ℕ)} {pos : List ℕ → ℤ × ℤ}
    {dPath : List ℕ} {dS : PT} {x0 y0 ex ey : ℤ} {pp : List ℕ} {thr : ℤ} {c : VNode}
    (hok : hypersOKb [] t = true) (hd : getAt t dPath = some dS)
    (hde : draggingEnd (visibleNodes t C pos) ⟨dPath, dS.Name, dS.Hypers, ex, ey⟩
      x0 y0 pp thr = some c) :
    pathPrefix dPath c.path = false :=
  commit_not_descendant hok hd hde

/-- Witness for C2: the concrete commit of `D` onto `A` in `exTree` lands
outside the dragged subtree. -/
theorem c2_no_cycle_witness :
    pathPrefix [1, 0, 0] (VNode.mk [0] "A" ["R"] 50 10).path = false :=
  @c2_no_cycle exTree [] pos7 [1, 0, 0] (mkN "D" ["C", "B", "R"] "C" []) 150 (-10) 51 10
    [1, 0] 30 (VNode.mk [0] "A" ["R"] 50 10) (by decide) rfl (by decide)

/-- C3: `onDragEnd` commits a structural reparent exactly when all three
conditions hold — the node travelled strictly more than 2 pixels from its
drag-start position (squared: `> 2*2`), the minimal distance to a candidate
is strictly below the default `dndThreshold` of 30 pixels (squared:
`< 30*30`), and the closest candidate is not the node's current parent; in
every other case the decision is a revert (`none`). -/
theorem c3_commit_iff (nodes : List VNode) (d : VNode) (x0 y0 : ℤ) (pp : List ℕ) (c : VNode) :
    draggingEnd nodes d x0 y0 pp dndThresholdDefault = some c ↔
      (closestIn nodes d = some c
        ∧ (d.x - x0) * (d.x - x0) + (d.y - y0) * (d.y - y0) > minTravel * minTravel
        ∧ ltInf (minDist (dragDists nodes d)) (dndThresholdDefault * dndThresholdDefault) = true
        ∧ c.path ≠ pp) := by
  constructor
  · exact draggingEnd_some
  · rintro ⟨hc, h1, h2, h3⟩
    exact draggingEnd_commit hc h1 h2 h3

/-- C5: when the drag-end decision is a revert (travel at most 2 pixels,
release at distance at least `dndThreshold` from every candidate, or drop
onto the current parent), the underlying data structure is left completely
unchanged: the data tree — every node's `Children`, `Father` and `Hypers` —
and the collapse state are exactly as before the gesture. -/
theorem c5_revert_no_mutation {t : PT} {C : List (List ℕ)} {pos : List ℕ → ℤ × ℤ}
    {dPath : List ℕ} {ex ey : ℤ} {dS : PT}
    (hne : dPath ≠ []) (hd : getAt t dPath = some dS)
    (h : ((ex - (pos dPath).1) * (ex - (pos dPath).1)
            + (ey - (pos dPath).2) * (ey - (pos dPath).2) ≤ minTravel * minTravel)
      ∨ ltInf (minDist (dragDists (visibleNodes t C pos) ⟨dPath, dS.Name, dS.Hypers, ex, ey⟩))
          (dndThresholdDefault * dndThresholdDefault) = false
      ∨ (∃ c, closestIn (visibleNodes t C pos) ⟨dPath, dS.Name, dS.Hypers, ex, ey⟩ = some c
           ∧ c.path = dPath.dropLast)) :
    dragEndStep t C pos dPath ex ey dndThresholdDefault = (t, C) := by
  unfold dragEndStep
  split
  · rfl
  · split
    · rfl
    · split
      · rename_i dS2 hd2 x2 c hdec
        exfalso
        rw [hd] at hd2
        cases Option.some.inj hd2
        obtain ⟨hc, h1, h2, h3⟩ := draggingEnd_some hdec
        rcases h with h | h | ⟨c2, hc2, hp2⟩
        · exact absurd h1 (not_lt.mpr h)
        · rw [h] at h2
          cases h2
        · rw [hc] at hc2
          cases Option.some.inj hc2
          exact h3 hp2
      · rfl

/-- Witness for C5: a 1-pixel slip of `D` in `exTree` reverts and leaves
the state untouched. -/
theorem c5_revert_no_mutation_witness :
    dragEndStep exTree [] pos7 [1, 0, 0] 151 (-10) dndThresholdDefault = (exTree, []) :=
  @c5_revert_no_mutation exTree [] pos7 [1, 0, 0] 151 (-10) (mkN "D" ["C", "B", "R"] "C" [])
    (by decide) rfl (Or.inl (by decide))

/-- C6: for every hierarchy node in a well-formed visibility state
(`children` is `null` or the saved `_children` array itself), toggling
collapse twice restores exactly the same `children` value — the identical
saved child array, so object identity of the children is preserved — and
for a true leaf (no saved `_children`) a single toggle is already a
no-op. -/
theorem c6_toggle_involution {d : HView}
    (hwf : d.children = none ∨ d.children = d.hidden) :
    clickToggle (clickToggle d) = d ∧ (d.hidden = none → clickToggle d = d) := by
  rcases d with ⟨ch, hid⟩
  rcases hid with _ | hlist
  · exact ⟨rfl, fun _ => rfl⟩
  · refine ⟨?_, fun h0 => Option.noConfusion h0⟩
    rcases hwf with h0 | h0
    · have h1 : ch = none := h0
      subst h1
      rfl
    · have h1 : ch = some hlist := h0
      subst h1
      rfl

/-- Witness for C6: double toggle on an expanded node with children
`[1, 2]` is the identity. -/
theorem c6_toggle_involution_witness :
    clickToggle (clickToggle ⟨some [1, 2], some [1, 2]⟩) = (⟨some [1, 2], some [1, 2]⟩ : HView)
    ∧ ((⟨some [1, 2], some [1, 2]⟩ : HView).hidden = none →
        clickToggle ⟨some [1, 2], some [1, 2]⟩ = ⟨some [1, 2], some [1, 2]⟩) :=
  c6_toggle_involution (Or.inr rfl)

/-- C7 counterexample: ids are not stable across a committed reparent.  The
commit of `D` onto `A` in `exTree` triggers `graphUpdate(event, null)`,
which rebuilds the hierarchy and reassigns ids as traversal indices of the
new tree: node `C` has id 3 before the reparent and id 4 after it, so the
claim that a committed reparent preserves every node's id is false. -/
theorem c7_counterexample :
    dragEndStep exTree [] pos7 [1, 0, 0] 51 10 dndThresholdDefault = (exTree2, [])
    ∧ idOfName exTree "C" = some 3
    ∧ idOfName exTree2 "C" = some 4 :=
  ⟨rfl, by decide, by decide⟩

/-- C7 (amended): ids are assigned at (re)build time as indices of the full
breadth-first traversal starting at 0; a collapse toggle never rebuilds and
never touches the data tree, so it preserves the id of every node; a
committed reparent, however, rebuilds the hierarchy from scratch and
reassigns ids in traversal order of the mutated tree, which need not
preserve them. -/
theorem c7_toggle_preserves_ids (s : PT × List (List ℕ)) (p : List ℕ) :
    (toggleStep s p).1 = s.1 ∧ ∀ nm, idOfName (toggleStep s p).1 nm = idOfName s.1 nm :=
  ⟨rfl, fun _ => rfl⟩

/-- C8 counterexample: `clickDelayMs` and `minDragTravel` are not among the
configuration options the `Tree` function destructures, so the engine does
not recognize them. -/
theorem c8_counterexample :
    "clickDelayMs" ∉ treeOptionNames ∧ "minDragTravel" ∉ treeOptionNames := by
  exact ⟨by decide, by decide⟩

/-- C8 (amended): of the three claimed options only `dndThreshold` is a
recognized configuration option (default 30 pixels); the single-versus-
double-click delay is the fixed literal 300 milliseconds and the minimum
drag travel the fixed literal 2 pixels, neither of them configurable. -/
theorem c8_recognized_options :
    "dndThreshold" ∈ treeOptionNames ∧ dndThresholdDefault = 30
    ∧ clickDelayMillis = 300 ∧ minTravel = 2
    ∧ "clickDelayMs" ∉ treeOptionNames ∧ "minDragTravel" ∉ treeOptionNames :=
  ⟨by decide, rfl, rfl, rfl, by decide, by decide⟩

/-- The hierarchy wraps the raw data without copying: `root.data` of
`build X` is `X` itself. -/
theorem toPlainTree_build (X : PT) : toPlainTree (build X) = X := by
  unfold build
  cases h : X.sz <;> simp [buildH, toPlainTree, HT.dat]

/-- C9: serialization is idempotent: building the tree from a valid input
hierarchy, exposing its plain tree (`data = root.data`, which the save path
serializes), rebuilding from it and exposing again yields a result
structurally equal to the first exposure. -/
theorem c9_roundtrip (X : PT) :
    toPlainTree (build (toPlainTree (build X))) = toPlainTree (build X) := by
  rw [toPlainTree_build (toPlainTree (build X))]

/-- C10 counterexample: the tie-break of the closest-node selection is not
pre-order.  Dragging `D` in `exT10`, the candidates `B` and `C` are tied at
squared distance 25; the code picks the first minimum in the breadth-first
`root.descendants()` order (`B`), while the earliest tied candidate in
pre-order of the visible tree is `C`. -/
theorem c10_counterexample :
    draggingEnd (visibleNodes exT10 [] pos10) ⟨[2], "D", ["R"], 5, 0⟩
        (pos10 [2]).1 (pos10 [2]).2 [] dndThresholdDefault
      = some ⟨[1], "B", ["R"], 0, 0⟩
    ∧ closestIn (specPreorderNodes exT10 [] pos10) ⟨[2], "D", ["R"], 5, 0⟩
      = some ⟨[0, 0], "C", ["A", "R"], 10, 0⟩
    ∧ candDist (["R"] ++ ["D"]) [2] 5 0 ⟨[1], "B", ["R"], 0, 0⟩ = some 25
    ∧ candDist (["R"] ++ ["D"]) [2] 5 0 ⟨[0, 0], "C", ["A", "R"], 10, 0⟩ = some 25
    ∧ (VNode.mk [1] "B" ["R"] 0 0) ≠ VNode.mk [0, 0] "C" ["A", "R"] 10 0 :=
  ⟨rfl, rfl, by decide, by decide, by decide⟩

/-- C10 (amended): the closest-node selection is a deterministic function
of the node positions: a committed target sits at an index of the
breadth-first `root.descendants()` order realizing the minimal distance,
and every earlier index holds a different distance value — i.e. on ties the
candidate appearing earliest in breadth-first order is selected. -/
theorem c10_first_min {nodes : List VNode} {d : VNode} {x0 y0 : ℤ} {pp : List ℕ}
    {thr : ℤ} {c : VNode} (h : draggingEnd nodes d x0 y0 pp thr = some c) :
    ∃ (i : ℕ) (q : ℤ), minDist (dragDists nodes d) = some q
      ∧ nodes[i]? = some c
      ∧ (dragDists nodes d)[i]? = some (some q)
      ∧ ∀ j, j < i → (dragDists nodes d)[j]? ≠ some (some q) := by
  obtain ⟨hc, _, hlt, _⟩ := draggingEnd_some h
  rcases hmin : minDist (dragDists nodes d) with _ | q
  · rw [hmin] at hlt
    simp [ltInf] at hlt
  · refine ⟨idxOf (dragDists nodes d) (some q), q, rfl, ?_, ?_, ?_⟩
    · unfold closestIn at hc
      rw [hmin] at hc
      exact hc
    · exact idxOf_get (minDist_mem hmin)
    · intro j hj
      exact idxOf_first hj

/-- Witness for C10 (amended): the committed pick of `B` when dragging `D`
in `exT10` is the first minimal-distance entry of the breadth-first
order. -/
theorem c10_first_min_witness :
    ∃ (i : ℕ) (q : ℤ), minDist (dragDists (visibleNodes exT10 [] pos10) ⟨[2], "D", ["R"], 5, 0⟩) = some q
      ∧ (visibleNodes exT10 [] pos10)[i]? = some (VNode.mk [1] "B" ["R"] 0 0)
      ∧ (dragDists (visibleNodes exT10 [] pos10) ⟨[2], "D", ["R"], 5, 0⟩)[i]? = some (some q)
      ∧ ∀ j, j < i →
          (dragDists (visibleNodes exT10 [] pos10) ⟨[2], "D", ["R"], 5, 0⟩)[j]? ≠ some (some q) :=
  @c10_first_min (visibleNodes exT10 [] pos10) ⟨[2], "D", ["R"], 5, 0⟩ 5 40 [] 30
    (VNode.mk [1] "B" ["R"] 0 0) rfl

/-- C4 counterexample: the candidate set is not the full model.  In `exT4`
with `B` collapsed, the hidden node `H` exists in the model, is not a
descendant of the dragged node `A`, and sits exactly at the release point
`(100, 100)`; yet it is absent from the searched `root.descendants()` list,
and the gesture reverts because every *visible* candidate is farther than
the threshold — so hidden non-descendants are not considered, refuting the
claim as stated. -/
theorem c4_counterexample :
    getAt exT4 [1, 0] = some (mkN "H" ["B", "R"] "B" [])
    ∧ pathPrefix [0] [1, 0] = false
    ∧ (visibleNodes exT4 [[1]] pos4).map (fun m => m.path) = [[], [0], [1]]
    ∧ (100 - (pos4 [1, 0]).1) * (100 - (pos4 [1, 0]).1)
        + (100 - (pos4 [1, 0]).2) * (100 - (pos4 [1, 0]).2) = 0
    ∧ dragEndStep exT4 [[1]] pos4 [0] 100 100 dndThresholdDefault = (exT4, [[1]]) :=
  ⟨rfl, by decide, by decide, by decide, rfl⟩

/-- C4 (amended): the candidate set searched at drag end consists of the
*visible* hierarchy nodes (`root.descendants()`, which excludes everything
inside collapsed subtrees): a visible node `m` receives a finite distance
exactly when `m` is not the dragged node and `m.Hypers` does not contain
every name of `dHypers = d.Hypers ++ [d.Name]`; in an invariant state this
in particular excludes every true visible descendant of the dragged node
(the membership test may also exclude unrelated nodes when the same names
recur on different branches). -/
theorem c4_visible_candidates {t : PT} {C : List (List ℕ)} {pos : List ℕ → ℤ × ℤ}
    {dPath : List ℕ} {dS : PT} {ex ey : ℤ}
    (hok : hypersOKb [] t = true) (hd : getAt t dPath = some dS) :
    ∀ m ∈ visibleNodes t C pos,
      (candDist (dS.Hypers ++ [dS.Name]) dPath ex ey m = none ↔
        (m.path = dPath ∨ (dS.Hypers ++ [dS.Name]).all (fun v => m.hypers.contains v) = true))
      ∧ (pathPrefix dPath m.path = true →
          candDist (dS.Hypers ++ [dS.Name]) dPath ex ey m = none) := by
  intro m hm
  constructor
  · constructor
    · intro hnone
      unfold candDist at hnone
      split at hnone
      · cases hnone
      · rename_i hcond
        rw [Bool.and_eq_true, not_and_or] at hcond
        rcases hcond with hcond | hcond
        · left
          rw [bne_iff_ne] at hcond
          exact not_not.mp hcond
        · right
          simpa using hcond
    · intro hdisj
      unfold candDist
      split
      · rename_i hcond
        rw [Bool.and_eq_true] at hcond
        exfalso
        rcases hdisj with he | ha
        · rw [bne_iff_ne] at hcond
          exact hcond.1 he
        · rw [ha] at hcond
          simpa using hcond.2
      · rfl
  · intro hpre
    by_cases hne : m.path = dPath
    · simp [candDist, hne]
    · have hall := descendant_all_contains hok hd hm hpre hne
      unfold candDist
      rw [hall]
      simp

/-- Witness for C4 (amended): the visible node `C` of `exTree` is a strict
descendant of the dragged node `B`, so its candidate distance is
`Infinity`. -/
theorem c4_visible_candidates_witness :
    (candDist (exB.Hypers ++ [exB.Name]) [1] 51 10 exM4 = none ↔
      (exM4.path = [1] ∨ (exB.Hypers ++ [exB.Name]).all (fun v => exM4.hypers.contains v) = true))
    ∧ (pathPrefix [1] exM4.path = true →
        candDist (exB.Hypers ++ [exB.Name]) [1] 51 10 exM4 = none) :=
  @c4_visible_candidates exTree [] pos7 [1] exB 51 10 (by decide) rfl exM4 (by decide)
